/-
Verification of the pystyle repository (PyPI/GitHub crawler and style-statistics
pipeline) against its natural-language specification.

The Python sources are shallowly embedded: each relevant function is translated
into an executable Lean definition over explicit data models.  Python dicts are
modelled as insertion-ordered association lists, Python regular expressions by a
small backtracking matcher over an atom list transcribed from the pattern
string, the filesystem and external tools (git, licensename, requests) by
explicit oracle values passed as arguments, Python exceptions by `Except`, and
the one floating-point expression by an exact integer model of IEEE binary64
arithmetic (correctly rounded division and multiplication, ties to even).
-/
import Mathlib

namespace Pystyle

/-! ## Python dict model

Python dicts are insertion ordered.  `setKey` models `d[k] = v`: it overwrites
the value of an existing key in place, or appends a fresh key at the end.
`dictUpdate` models `d.update(other)`, and `lookupKey` models `d.get(k)`. -/

variable {κ : Type} {α : Type} [DecidableEq κ]

def setKey : List (κ × α) → κ → α → List (κ × α)
  | [], k, v => [(k, v)]
  | (k', v') :: rest, k, v =>
      if k' = k then (k, v) :: rest else (k', v') :: setKey rest k v

def lookupKey (k : κ) : List (κ × α) → Option α
  | [] => none
  | (k', v') :: rest => if k' = k then some v' else lookupKey k rest

/-- Model of Python `d.update(other)`: fold `setKey` over the entries of
`other` in order, starting from `d`. -/
def dictUpdate (d other : List (κ × α)) : List (κ × α) :=
  other.foldl (fun acc kv => setKey acc kv.1 kv.2) d

/-- Model of Python `needle in hay` for strings (substring containment). -/
def strContains (needle hay : String) : Bool :=
  hay.data.tails.any (fun t => needle.data.isPrefixOf t)

/-! ## Regular-expression matcher

Python's `re` module is modelled by a backtracking matcher over a flat list of
regex atoms.  `lit c` is a literal character, `dot` is `.` — which, without
`re.DOTALL` (never passed here), matches any character except a newline —
`cls p` is a character class `[...]` matching one character satisfying `p`
(a negated class such as `[^/]` does match a newline),
`star p` is `[...]*` (greedy, with backtracking), and `opt c` is `c?`.
A `[...]+` is transcribed as `cls p` followed by `star p`.  `rmatch` returns
`some n` when the atom list matches a prefix of length `n` of the input (the
prefix the greedy Python engine picks), `none` when there is no match at the
start of the input; `re.match` succeeds exactly when the result is `some`. -/

inductive RAtom where
  | lit (c : Char)
  | dot
  | cls (p : Char → Bool)
  | star (p : Char → Bool)
  | opt (c : Char)

/-- Greedy matching of `star p` followed by a continuation `k`: consume as many
`p`-characters as possible, backtracking into `k` when the remainder fails. -/
def starLoop (p : Char → Bool) (k : List Char → Option Nat) : List Char → Option Nat
  | [] => k []
  | d :: s =>
      if p d then
        match starLoop p k s with
        | some n => some (n + 1)
        | none => k (d :: s)
      else k (d :: s)

def rmatch : List RAtom → List Char → Option Nat
  | [], _ => some 0
  | .lit c :: rest, s =>
      match s with
      | [] => none
      | d :: s' => if c = d then (rmatch rest s').map (· + 1) else none
  | .dot :: rest, s =>
      match s with
      | [] => none
      | d :: s' => if d = '\n' then none else (rmatch rest s').map (· + 1)
  | .cls p :: rest, s =>
      match s with
      | [] => none
      | d :: s' => if p d then (rmatch rest s').map (· + 1) else none
  | .star p :: rest, s => starLoop p (rmatch rest) s
  | .opt c :: rest, s =>
      match s with
      | [] => rmatch rest []
      | d :: s' =>
          if c = d then
            match rmatch rest s' with
            | some n => some (n + 1)
            | none => rmatch rest (d :: s')
          else rmatch rest (d :: s')

/-- Transcribe a literal run of pattern characters into atoms. -/
def litsOf (w : List Char) : List RAtom := w.map .lit

/-- Character class `[^/]`. -/
def nonSlash (c : Char) : Bool := c ≠ '/'

/-- The pattern `https://github.com/[^/]*/[^/]*/?` of
`src/pystyle/pystyle_crawl.py` (note that the `.` before `com` is the
any-character metacharacter, and that `re.match` only anchors at the start). -/
def githubProjectPat : List RAtom :=
  litsOf "https://github".data ++ [.dot] ++ litsOf "com/".data ++
    [.star nonSlash, .lit '/', .star nonSlash, .opt '/']

/-- The pattern `https://github.com/[^/]+/[^/]+/?` of
`src/src/pystyle/pystyle_crawl.py` (`[^/]+` transcribed as `[^/][^/]*`). -/
def githubProjectPatPlus : List RAtom :=
  litsOf "https://github".data ++ [.dot] ++ litsOf "com/".data ++
    [.cls nonSlash, .star nonSlash, .lit '/', .cls nonSlash, .star nonSlash, .opt '/']

/-- Embedding of `is_github_project_url` (src/pystyle/pystyle_crawl.py):
`re.match('https://github.com/[^/]*/[^/]*/?', url) is not None`. -/
def is_github_project_url (url : String) : Bool :=
  (rmatch githubProjectPat url.data).isSome

/-- Embedding of the `src/src` variant of `is_github_project_url`:
`re.match('https://github.com/[^/]+/[^/]+/?', url) is not None`. -/
def is_github_project_url_plus (url : String) : Bool :=
  (rmatch githubProjectPatPlus url.data).isSome

/-! ## File and directory presence extractors (src/pystyle/update.py)

The working tree is modelled by its root-level query interface: `isFile name`
holds when `(repo_path / name).is_file()` and `isDir name` when
`(repo_path / name).is_dir()`.  A tree may contain arbitrarily many other
files; the extractors only ever query the catalog names. -/

structure FsTree where
  isFile : String → Bool
  isDir : String → Bool

/-- The fixed filename catalog of `has_typical_files`. -/
def typical_files : List String :=
  [".gitignore", "AUTHORS.md", "AUTHORS.rst", "CHANGELOG.md", "CHANGELOG.rst",
   "CONTRIBUTING.md", "CONTRIBUTING.rst", "LICENSE", "Pipfile", "Pipfile.lock",
   "pyproject.toml", "LICENSE.txt", ".noserc", "nose.cfg", "Makefile",
   "MANIFEST.in", "pytest.ini", "README", "README.txt", "README.md",
   "README.rst", "requirements.txt", "requirements_dev.txt", "setup.cfg",
   "setup.py", "test-requirements.txt", "tox.ini"]

/-- The fixed directory catalog of `has_typical_dirs`. -/
def typical_dirs : List String :=
  ["doc/", "docs/", "examples/", "src/", "test/", "tests/"]

/-- Embedding of `has_typical_files`: a dict comprehension emitting
`"file:" + name ↦ int(is_file)` for each catalog name in order. -/
def has_typical_files (t : FsTree) : List (String × ℤ) :=
  typical_files.map (fun f => ("file:" ++ f, if t.isFile f then 1 else 0))

/-- Embedding of `has_typical_dirs`: `"dir:" + name ↦ int(is_dir)` for each
catalog directory in order. -/
def has_typical_dirs (t : FsTree) : List (String × ℤ) :=
  typical_dirs.map (fun d => ("dir:" ++ d, if t.isDir d then 1 else 0))

/-! ## License inference (src/pystyle/update.py, infer_license)

The external `licensename.from_file` call on one candidate path has four
relevant outcomes, matching the code's handling: the file is missing
(`FileNotFoundError`, caught), it cannot be decoded (`UnicodeDecodeError`,
caught), the license text is not recognized (`from_file` returns `None`, a
warning is logged and the loop continues), or a license name is identified
(returned immediately).  A working tree is modelled by the oracle mapping each
candidate filename to its outcome. -/

inductive LicenseProbe where
  | fileMissing
  | undecodable
  | unknownLicense
  | identified (name : String)

/-- The fixed candidate list of `infer_license`, in source order. -/
def probable_license_files : List String :=
  ["LICENSE", "LICENSE.txt", "LICENCE", "LICENCE.txt"]

def inferLicenseGo (probe : String → LicenseProbe) : List String → List (String × String)
  | [] => [("license", "")]
  | f :: rest =>
      match probe f with
      | .identified name => [("license", name)]
      | .unknownLicense => inferLicenseGo probe rest
      | .fileMissing => inferLicenseGo probe rest
      | .undecodable => inferLicenseGo probe rest

/-- Embedding of `infer_license`: probe the candidates in order, return the
first identified name, and `{"license": ""}` when the loop falls through. -/
def infer_license (probe : String → LicenseProbe) : List (String × String) :=
  inferLicenseGo probe probable_license_files

/-- Spec-side description: the name attached to the first candidate filename
(in the documented fixed order) that is successfully identified. -/
def firstIdentifiedLicense (probe : String → LicenseProbe) : Option String :=
  probable_license_files.findSome? (fun f =>
    match probe f with
    | .identified name => some name
    | _ => none)

/-! ## Shebang counting (src/pystyle/update.py, count_shebangs)

`path.rglob("*.py")` is modelled as the list of enumerated entries; each entry
is `some first_line` when `open`/`readline` succeeds and `none` when it raises
one of the caught errors (the entry still counts towards `py_files`, which is
incremented before the `try`).

The expression `int(100 * (shebangs_qty / py_files))` runs in IEEE binary64
arithmetic: CPython's `int / int` is the correctly rounded double of the exact
quotient, the multiplication by `100` is again correctly rounded, and `int()`
truncates.  A non-negative double is represented below by an exact pair
`significand * 2 ^ exponent`, and both roundings (round to nearest, ties to
even, 53-bit significand) are implemented over the integers.  The counters of
`count_shebangs` satisfy `shebangs_qty ≤ py_files`, so the quotient lies in
`[0, 1]` and the product in `[0, 100]`, well inside the double's normal range:
overflow never occurs, and gradual underflow only below quotients of `2^-1021`,
astronomically beyond any enumerable tree. -/

/-- Model of Python `round()` to an integer: round half to even (banker's
rounding; the last test picks the even neighbour on an exact half). -/
def pyRound (x : ℚ) : ℤ :=
  if x - x.floor < 1/2 then x.floor
  else if 1/2 < x - x.floor then x.floor + 1
  else if x.floor % 2 = 0 then x.floor else x.floor + 1

/-- Number of binary digits of `n` (`0` for `0`): the recursion depth of
halving is at most `n`, so `n` itself serves as structural fuel. -/
def bitLenGo : ℕ → ℕ → ℕ
  | 0, _ => 0
  | fuel + 1, n => if n = 0 then 0 else bitLenGo fuel (n / 2) + 1

def bitLen (n : ℕ) : ℕ := bitLenGo n n

/-- Nearest integer to `n / d` (`d > 0`), ties to even — the IEEE rounding
used by every binary64 operation. -/
def roundNearestEven (n d : ℕ) : ℕ :=
  let q := n / d
  let r := n % d
  if 2 * r < d then q
  else if d < 2 * r then q + 1
  else if q % 2 = 0 then q else q + 1

/-- A non-negative binary64 value, exactly `mant * 2 ^ exp`.  Results of the
operations below have `mant = 0` or `2^52 ≤ mant < 2^53`. -/
structure PyFloat where
  mant : ℕ
  exp : ℤ
deriving DecidableEq

/-- The integer `⌊log₂ (n / d)⌋` for `n, d ≥ 1`: the bit lengths determine it
up to one, and the direct comparison `2^(bn-bd) ≤ n/d`, cleared of
denominators, settles which. -/
def ratioExp (n d : ℕ) : ℤ :=
  let bn := bitLen n
  let bd := bitLen d
  if 2 ^ bn * d ≤ 2 ^ bd * n then (bn : ℤ) - bd else (bn : ℤ) - bd - 1

/-- The correctly rounded binary64 value of `n / d` (CPython's true division
of non-negative ints): scale the exact quotient into `[2^52, 2^53)`, round to
the nearest integer significand (ties to even), and renormalise when the
rounding overflows to `2^53`. -/
def floatOfRatio (n d : ℕ) : PyFloat :=
  if n = 0 then ⟨0, 0⟩ else
  let e : ℤ := ratioExp n d - 52
  let m := roundNearestEven (n * 2 ^ ((-e).toNat)) (d * 2 ^ e.toNat)
  if m = 2 ^ 53 then ⟨2 ^ 52, e + 1⟩ else ⟨m, e⟩

/-- Round the exact value `n * 2 ^ e` (`n ≥ 1`) to binary64: keep it when it
already fits in 53 bits, otherwise round the significand down to 53 bits. -/
def floatRound53 (n : ℕ) (e : ℤ) : PyFloat :=
  let b := bitLen n
  if b ≤ 53 then ⟨n, e⟩
  else
    let shift := b - 53
    let m := roundNearestEven n (2 ^ shift)
    if m = 2 ^ 53 then ⟨2 ^ 52, e + shift + 1⟩ else ⟨m, e + shift⟩

/-- The binary64 product `100 * x` (`100` is exact, so the correctly rounded
product is the exact integer product of the significand rounded back to 53
bits). -/
def floatMul100 (x : PyFloat) : PyFloat :=
  if x.mant = 0 then ⟨0, 0⟩ else floatRound53 (100 * x.mant) x.exp

/-- Python `int()` on a non-negative double: truncation. -/
def floatToInt (x : PyFloat) : ℤ :=
  if 0 ≤ x.exp then (x.mant : ℤ) * 2 ^ x.exp.toNat
  else ((x.mant / 2 ^ (-x.exp).toNat : ℕ) : ℤ)

/-- Model of `first_line[0:2] == "#!"`. -/
def startsShebang (line : String) : Bool := line.data.take 2 = ['#', '!']

/-- Character class `[0-9.]` of the version regex. -/
def versChar (c : Char) : Bool := c.isDigit || c = '.'

/-- Does `python` (case-insensitively, per `re.I`) occur at the head? -/
def pythonAt (s : List Char) : Bool := (s.take 6).map Char.toLower = "python".data

/-- Model of `re.search("python[0-9.]*", line, re.I).group(0)`: the leftmost
case-insensitive occurrence of `python` together with the greedy run of
digits and dots following it, in the original spelling. -/
def searchPython : List Char → Option (List Char)
  | [] => none
  | c :: rest =>
      if pythonAt (c :: rest) then
        some ((c :: rest).take 6 ++ ((c :: rest).drop 6).takeWhile versChar)
      else searchPython rest

/-- Model of `Counter[key] += 1`. -/
def counterInc (m : List (String × ℤ)) (k : String) : List (String × ℤ) :=
  setKey m k ((lookupKey k m).getD 0 + 1)

/-- The accumulation loop of `count_shebangs`: returns the version counter,
`shebangs_qty` and `py_files`. -/
def countShebangsGo : List (Option String) → List (String × ℤ) → ℕ → ℕ →
    List (String × ℤ) × ℕ × ℕ
  | [], counter, qty, files => (counter, qty, files)
  | none :: rest, counter, qty, files =>
      countShebangsGo rest counter qty (files + 1)
  | some line :: rest, counter, qty, files =>
      if startsShebang line then
        match searchPython line.data with
        | some m =>
            countShebangsGo rest (counterInc counter ("shebang:" ++ String.mk m))
              (qty + 1) (files + 1)
        | none => countShebangsGo rest counter (qty + 1) (files + 1)
      else countShebangsGo rest counter qty (files + 1)

/-- The percentage expression of `count_shebangs`:
`int(100 * (shebangs_qty / py_files if py_files else 0))`, evaluated in
binary64 arithmetic as CPython does. -/
def shebangsPctVal (qty files : ℕ) : ℤ :=
  if files = 0 then 0 else floatToInt (floatMul100 (floatOfRatio qty files))

/-- Embedding of `count_shebangs`: tally the version counter over the
enumerated entries, then store the percentage under `"shebangs_pct"`. -/
def count_shebangs (files : List (Option String)) : List (String × ℤ) :=
  let acc := countShebangsGo files [] 0 0
  setKey acc.1 "shebangs_pct" (shebangsPctVal acc.2.1 acc.2.2)

/-- Spec-side count of enumerated entries whose first line starts with the
shebang marker. -/
def shebangCountOf (files : List (Option String)) : ℕ :=
  files.countP (fun f =>
    match f with
    | some line => startsShebang line
    | none => false)

/-! ## Style inference battery (src/pystyle/update.py, infer_style_of_repo)

The extractor battery is the `methods` dict of name/function pairs; each
extractor either returns a flat record or raises (`Except.error`).  The
returned flag records whether the `except Exception` handler ran (it prints
the traceback and calls `logger.exception` with the repo path).  The whole
`for` loop sits inside one `try`, and after the handler the function returns
the `result` accumulated so far. -/

def onlyAllows (only : Option String) (nm : String) : Bool :=
  match only with
  | none => true
  | some o => strContains o nm

def inferStyleGo {τ V : Type} (path : τ) (only : Option String) :
    List (String × (τ → Except Unit (List (String × V)))) →
    List (String × V) → List (String × V) × Bool
  | [], acc => (acc, false)
  | (nm, m) :: rest, acc =>
      if onlyAllows only nm then
        match m path with
        | .ok kvs => inferStyleGo path only rest (dictUpdate acc kvs)
        | .error _ => (acc, true)
      else inferStyleGo path only rest acc

/-- Embedding of `infer_style_of_repo`, parametrized by the extractor battery
(whose members probe the filesystem and external tools). -/
def infer_style_of_repo {τ V : Type}
    (methods : List (String × (τ → Except Unit (List (String × V)))))
    (path : τ) (only : Option String) : List (String × V) × Bool :=
  inferStyleGo path only methods []

/-- The batch driver maps the per-repository analysis over independent
clones (the worker-pool `starmap` over `git_store` entries). -/
def inferStyleBatch {τ V : Type}
    (methods : List (String × (τ → Except Unit (List (String × V)))))
    (only : Option String) (paths : List τ) : List (List (String × V) × Bool) :=
  paths.map (fun p => infer_style_of_repo methods p only)

/-! ## Commit-scoping constructs (src/pystyle/update.py, random_commit / commit)

A clone is modelled by its current `HEAD` and the list of commit identifiers
reachable from it; `git` subcommands become functions on this state, raising
`calledProcessError` exactly when the underlying `subprocess.check_call` would
(checkout of an unknown commit).  Python exceptions are `Except.error`; the
`with` statement runs `__exit__` whenever the body was entered, whether the
body returned or raised, but not when `__enter__` itself raised. -/

inductive PyErr where
  | typeError
  | calledProcessError
  | indexError
  | otherError
deriving DecidableEq

structure GitRepo where
  head : String
  commits : List String
  detached : Bool
deriving DecidableEq

/-- Output of `git status` for the modelled repository. -/
def gitStatus (r : GitRepo) : String :=
  if r.detached then "HEAD detached at " ++ r.head
  else "On branch main\nnothing to commit, working tree clean"

/-- Output of `git rev-parse HEAD` (with `universal_newlines=True` and
`rstrip()` applied). -/
def gitRevParseHead (r : GitRepo) : String := r.head

/-- Output lines of `git rev-list <commit>`: the reachable commit ids followed
by the empty line produced by the trailing newline of the command output. -/
def gitRevList (r : GitRepo) (_start : String) : List String :=
  r.commits ++ [""]

/-- Effect of `git checkout -f <commit>`: move `HEAD`, failing with
`CalledProcessError` when the commit does not exist in the clone. -/
def gitCheckoutF (r : GitRepo) (c : String) : Except PyErr GitRepo :=
  if c ∈ r.commits then .ok ⟨c, r.commits, true⟩ else .error .calledProcessError

/-- The byte literal `b"detached at"` from `fix_checkout`. -/
def detachedAtBytes : List UInt8 := "detached at".toUTF8.toList

/-- Model of the Python membership test `bytes_value in str_value`: CPython
rejects a bytes needle on a str haystack with
`TypeError: a bytes-like object is required, not 'str'`, whatever the
operands' contents are. -/
def bytesInStr (_needle : List UInt8) (_hay : String) : Except PyErr Bool :=
  .error .typeError

/-- The re-attach branch of `fix_checkout`.  It calls
`check_output(...).split("\n")` on a `bytes` result with a `str` separator,
which is itself a `TypeError`; the branch is unreachable because the
`b"detached at" not in status` test already raised. -/
def fixDetachedBranch (_r : GitRepo) : Except PyErr Unit := .error .typeError

/-- Embedding of `random_commit.fix_checkout`: run `git status`, test
`b"detached at" not in status`, return early when not detached, otherwise
re-attach to the upstream branch. -/
def fix_checkout (r : GitRepo) : Except PyErr Unit :=
  match bytesInStr detachedAtBytes (gitStatus r) with
  | .error e => .error e
  | .ok inStatus => if !inStatus then .ok () else fixDetachedBranch r

/-- Model of `random.choice(candidates)`: `IndexError` on an empty sequence,
otherwise the element selected by the random index `ix`. -/
def randomChoice (l : List String) (ix : ℕ) : Except PyErr String :=
  match l with
  | [] => .error .indexError
  | _ => .ok (l.getD (ix % l.length) "")

/-- Embedding of `random_commit.pick_random_commit`: choose among the
non-empty lines of `git rev-list <initial>`. -/
def pick_random_commit (r : GitRepo) (initial : String) (ix : ℕ) : Except PyErr String :=
  randomChoice ((gitRevList r initial).filter (fun c => c ≠ "")) ix

/-- Embedding of `random_commit.__enter__` (src/pystyle/update.py): fix the
checkout, record `HEAD`, pick a random reachable commit and check it out,
returning the new state, the recorded commit and the scope value. -/
def randomCommitEnter (r : GitRepo) (ix : ℕ) : Except PyErr (GitRepo × String × String) :=
  match fix_checkout r with
  | .error e => .error e
  | .ok _ =>
      let initial := gitRevParseHead r
      match pick_random_commit r initial ix with
      | .error e => .error e
      | .ok c =>
          match gitCheckoutF r c with
          | .error e => .error e
          | .ok r1 => .ok (r1, initial, c)

/-- The `with random_commit(repo) as commit:` statement around a body.  The
body receives the repository state and the scope value and returns the new
state together with a normal result or a raised exception; `__exit__` (which
checks `initial_commit` back out) runs on both exit paths once the body was
entered. -/
def withRandomCommit {β : Type} (r : GitRepo) (ix : ℕ)
    (body : GitRepo → String → GitRepo × Except PyErr β) : GitRepo × Except PyErr β :=
  match randomCommitEnter r ix with
  | .error e => (r, .error e)
  | .ok (r1, initial, c) =>
      let out := body r1 c
      match gitCheckoutF out.1 initial with
      | .ok r3 => (r3, out.2)
      | .error e => (out.1, .error e)

/-- Embedding of `commit.__enter__` (the fixed-commit variant): record
`git rev-parse HEAD`, then check the target commit out. -/
def commitScopeEnter (r : GitRepo) (target : String) : Except PyErr (GitRepo × String) :=
  let initial := gitRevParseHead r
  match gitCheckoutF r target with
  | .error e => .error e
  | .ok r1 => .ok (r1, initial)

/-- The `with commit(repo, target):` statement around a body; `__exit__`
checks the recorded commit back out on both exit paths. -/
def withCommitScope {β : Type} (r : GitRepo) (target : String)
    (body : GitRepo → GitRepo × Except PyErr β) : GitRepo × Except PyErr β :=
  match commitScopeEnter r target with
  | .error e => (r, .error e)
  | .ok (r1, initial) =>
      let out := body r1
      match gitCheckoutF out.1 initial with
      | .ok r3 => (r3, out.2)
      | .error e => (out.1, .error e)

/-! ## Clone acquisition (src/pystyle/pystyle_crawl.py, git_clone_or_update)

The filesystem state is reduced to whether a directory exists at `clone_path`,
and the two external git commands to success oracles (`subprocess.run` with
`check=True` raises `CalledProcessError` exactly when the command fails).  The
outcome records the sequence of performed effects, whether a directory remains
at `clone_path`, and whether the function raised. -/

inductive GitAction where
  | pullFF
  | rmtree
  | makedirs
  | cloneCmd
  | rmtreeIgnoreErrors
deriving DecidableEq

structure CloneOutcome where
  trace : List GitAction
  dirAfter : Bool
  raised : Bool
deriving DecidableEq

/-- The fall-through part of `git_clone_or_update`: `os.makedirs(clone_path)`,
then `git clone`; on `CalledProcessError` the error is logged and the
partially-created directory removed with `ignore_errors=True`. -/
def freshClone (pre : List GitAction) (cloneOk : Bool) : CloneOutcome :=
  if cloneOk then ⟨pre ++ [.makedirs, .cloneCmd], true, false⟩
  else ⟨pre ++ [.makedirs, .cloneCmd, .rmtreeIgnoreErrors], false, false⟩

/-- Embedding of `git_clone_or_update`: when a directory exists, try
`git pull --ff-only` and return on success; on failure remove the copy and
fall through to a fresh clone. -/
def git_clone_or_update (dirAtPath pullOk cloneOk : Bool) : CloneOutcome :=
  if dirAtPath then
    if pullOk then ⟨[.pullFF], true, false⟩
    else freshClone [.pullFF, .rmtree] cloneOk
  else freshClone [] cloneOk

/-! ## PyPI page resolution (src/pystyle/pystyle_crawl.py, pypi_url_to_github_url)

The already-received response is modelled by the optional `home_page` field of
its JSON body (`project_json['home_page']` raises `KeyError` exactly when the
field is absent) and by the raw page text.  `re.findall` over the page text is
embedded with the same matcher used for `re.match`, scanning left to right and
resuming after each non-overlapping match; `sorted(found_github, key=len)[0]`
is a stable sort by length followed by taking the head. -/

/-- Character class `[a-zA-Z0-9_-]`. -/
def wordChar (c : Char) : Bool := c.isAlphanum || c = '_' || c = '-'

/-- The pattern `https://github.com/[a-zA-Z0-9_-]+/[a-zA-Z0-9_-]+/?` used by
the raw-text fallback scan. -/
def githubFindallPat : List RAtom :=
  litsOf "https://github".data ++ [.dot] ++ litsOf "com/".data ++
    [.cls wordChar, .star wordChar, .lit '/', .cls wordChar, .star wordChar, .opt '/']

/-- One left-to-right `re.findall` pass.  The fuel argument only bounds the
recursion; since every step consumes at least one character, fuel equal to the
input length is exact. -/
def refindallGo : ℕ → List Char → List (List Char)
  | 0, _ => []
  | _ + 1, [] => []
  | fuel + 1, d :: rest =>
      match rmatch githubFindallPat (d :: rest) with
      | some n => (d :: rest).take n :: refindallGo fuel ((d :: rest).drop (max n 1))
      | none => refindallGo fuel rest

/-- Model of `re.findall('https://github.com/[a-zA-Z0-9_-]+/[a-zA-Z0-9_-]+/?', text)`. -/
def refindallGithub (s : List Char) : List (List Char) :=
  refindallGo s.length s

/-- Stable insertion of a match into a length-sorted list (equal lengths keep
their original relative order, as Python's stable `sorted` does). -/
def insertByLen (x : List Char) : List (List Char) → List (List Char)
  | [] => [x]
  | y :: ys => if x.length ≤ y.length then x :: y :: ys else y :: insertByLen x ys

/-- Model of `sorted(found_github, key=len)`. -/
def sortByLen (l : List (List Char)) : List (List Char) :=
  l.foldr insertByLen []

structure PyPIResponse where
  home_page : Option String
  text : String

/-- Embedding of `pypi_url_to_github_url`: return `home_page` when the JSON
field exists and looks like a GitHub project URL; on `KeyError` (the field is
absent) scan the raw page text and return the shortest GitHub-shaped match;
otherwise fall off the end of the function (`None`). -/
def pypi_url_to_github_url (resp : PyPIResponse) : Option String :=
  match resp.home_page with
  | some hp => if is_github_project_url hp then some hp else none
  | none =>
      let found := refindallGithub resp.text.data
      if found.isEmpty then none
      else some (String.mk ((sortByLen found).headD []))

/-! ## JSON-per-project persistence (src/pystyle/pystyle_update.py, infer_style)

The `json_store` is modelled as a map from `(org, project)` to the stored
`style.json` content, which is either a valid flat record or malformed JSON
(reported and treated as empty — the freshly computed style is written alone).
The per-project style computation `infer_style_of_repo(path, only)` is
abstracted as the oracle `styleOf`. -/

inductive StoredJson (V : Type) where
  | valid (r : List (String × V))
  | malformed

/-- One iteration of the `infer_style` loop for a single project directory:
skip when there is no existing `style.json` and a filter is given; otherwise
compute the style, merge it into an existing valid record via
`old_style.update(style)`, and write the result. -/
def inferStyleStep {V : Type}
    (styleOf : String × String → Option String → List (String × V))
    (only : Option String)
    (store : List ((String × String) × StoredJson V)) (p : String × String) :
    List ((String × String) × StoredJson V) :=
  match lookupKey p store with
  | none =>
      if only.isSome then store
      else setKey store p (.valid (styleOf p only))
  | some (.valid old) => setKey store p (.valid (dictUpdate old (styleOf p only)))
  | some .malformed => setKey store p (.valid (styleOf p only))

/-- Embedding of the `infer_style` driver of pystyle_update.py: fold the
per-project step over the project directories found under `git_store`. -/
def infer_style {V : Type}
    (styleOf : String × String → Option String → List (String × V))
    (only : Option String) (projects : List (String × String))
    (store : List ((String × String) × StoredJson V)) :
    List ((String × String) × StoredJson V) :=
  projects.foldl (inferStyleStep styleOf only) store

/-! ## Association-list lemmas (Python dict semantics) -/

theorem lookupKey_setKey_self {κ α : Type} [DecidableEq κ] (m : List (κ × α)) (k : κ) (v : α) :
    lookupKey k (setKey m k v) = some v := by
  induction m with
  | nil => simp [setKey, lookupKey]
  | cons kv rest ih =>
      obtain ⟨k', v'⟩ := kv
      by_cases h : k' = k
      · simp [setKey, h, lookupKey]
      · simp [setKey, h, lookupKey, ih]

theorem lookupKey_setKey_ne {κ α : Type} [DecidableEq κ] (m : List (κ × α)) {k k' : κ} (v : α)
    (h : k' ≠ k) : lookupKey k (setKey m k' v) = lookupKey k m := by
  induction m with
  | nil => simp [setKey, lookupKey, h]
  | cons kv rest ih =>
      obtain ⟨k'', v''⟩ := kv
      by_cases h2 : k'' = k'
      · simp [setKey, h2, lookupKey, h]
      · by_cases h3 : k'' = k <;> simp [setKey, h2, lookupKey, h3, Ne.symm h, ih]

theorem setKey_of_lookupKey_eq {κ α : Type} [DecidableEq κ] {m : List (κ × α)} {k : κ} {v : α}
    (h : lookupKey k m = some v) : setKey m k v = m := by
  induction m with
  | nil => simp [lookupKey] at h
  | cons kv rest ih =>
      obtain ⟨k', v'⟩ := kv
      by_cases h2 : k' = k
      · subst h2
        simp [lookupKey] at h
        simp [setKey, h]
      · simp [lookupKey, h2] at h
        simp [setKey, h2, ih h]

theorem dictUpdate_nil {κ α : Type} [DecidableEq κ] (S : List (κ × α)) :
    dictUpdate S [] = S := rfl

theorem dictUpdate_cons {κ α : Type} [DecidableEq κ] (S R : List (κ × α)) (k : κ) (v : α) :
    dictUpdate S ((k, v) :: R) = dictUpdate (setKey S k v) R := rfl

theorem lookupKey_dictUpdate_notMem {κ α : Type} [DecidableEq κ] (R : List (κ × α)) {k : κ}
    (h : k ∉ R.map Prod.fst) : ∀ S, lookupKey k (dictUpdate S R) = lookupKey k S := by
  induction R with
  | nil => intro S; rfl
  | cons kv rest ih =>
      intro S
      obtain ⟨k', v'⟩ := kv
      simp only [List.map_cons, List.mem_cons] at h
      push_neg at h
      rw [dictUpdate_cons, ih h.2, lookupKey_setKey_ne _ _ (fun hk => h.1 hk.symm)]

theorem lookupKey_dictUpdate_mem {κ α : Type} [DecidableEq κ] {R : List (κ × α)} {k : κ} {v : α}
    (hnd : (R.map Prod.fst).Nodup) (hmem : (k, v) ∈ R) :
    ∀ S, lookupKey k (dictUpdate S R) = some v := by
  induction R with
  | nil => simp at hmem
  | cons kv rest ih =>
      intro S
      obtain ⟨k', v'⟩ := kv
      simp only [List.map_cons, List.nodup_cons] at hnd
      rcases List.mem_cons.1 hmem with heq | hrest
      · obtain ⟨rfl, rfl⟩ := Prod.mk.injEq .. ▸ heq
        have hk : k ∉ rest.map Prod.fst := by
          simpa using hnd.1
        rw [dictUpdate_cons, lookupKey_dictUpdate_notMem rest hk, lookupKey_setKey_self]
      · rw [dictUpdate_cons]
        exact ih hnd.2 hrest _

theorem dictUpdate_self_of_lookup {κ α : Type} [DecidableEq κ] {R : List (κ × α)}
    (M : List (κ × α)) (h : ∀ kv ∈ R, lookupKey kv.1 M = some kv.2) : dictUpdate M R = M := by
  induction R with
  | nil => rfl
  | cons kv rest ih =>
      obtain ⟨k', v'⟩ := kv
      rw [dictUpdate_cons, setKey_of_lookupKey_eq (h (k', v') (List.mem_cons_self _ _))]
      exact ih (fun kv hkv => h kv (List.mem_cons_of_mem _ hkv))

/-- C6: merging a freshly computed style record into previously persisted state
(the `old_style.update(style)` read-merge-write of pystyle_update.py) is
idempotent — applying the same record twice gives the same persisted state as
applying it once — and it overwrites exactly the keys of the new record while
preserving all other keys of the old state. -/
theorem C6_merge_idempotent {α : Type} (S R : List (String × α))
    (h : (R.map Prod.fst).Nodup) :
    dictUpdate (dictUpdate S R) R = dictUpdate S R ∧
    (∀ k v, (k, v) ∈ R → lookupKey k (dictUpdate S R) = some v) ∧
    (∀ k, k ∉ R.map Prod.fst → lookupKey k (dictUpdate S R) = lookupKey k S) := by
  refine ⟨?_, ?_, ?_⟩
  · exact dictUpdate_self_of_lookup _
      (fun kv hkv => lookupKey_dictUpdate_mem h hkv S)
  · exact fun k v hkv => lookupKey_dictUpdate_mem h hkv S
  · exact fun k hk => lookupKey_dictUpdate_notMem R hk S

/-- Witness for C6 at a concrete persisted record and update. -/
theorem C6_merge_idempotent_witness :
    dictUpdate (dictUpdate [("license", "MIT"), ("test_engine", "nose")]
        [("license", "BSD"), ("commit", "abc")]) [("license", "BSD"), ("commit", "abc")] =
      dictUpdate [("license", "MIT"), ("test_engine", "nose")]
        [("license", "BSD"), ("commit", "abc")] :=
  (C6_merge_idempotent [("license", "MIT"), ("test_engine", "nose")]
    [("license", "BSD"), ("commit", "abc")] (by decide)).1

/-! ## C9: presence extractors -/

theorem stringAppendLeftInj (p : String) : ∀ a b : String, p ++ a = p ++ b → a = b := by
  intro a b h
  apply String.ext
  have hd := congrArg String.data h
  rw [String.data_append, String.data_append] at hd
  exact List.append_cancel_left hd

theorem lookupKey_map_keyed {α : Type} (K : String → String) (V : String → α)
    (hinj : ∀ a b, K a = K b → a = b) :
    ∀ (l : List String), ∀ n ∈ l, lookupKey (K n) (l.map (fun f => (K f, V f))) = some (V n) := by
  intro l
  induction l with
  | nil => simp
  | cons f rest ih =>
      intro n hn
      simp only [List.map_cons, lookupKey]
      by_cases h : K f = K n
      · have : f = n := hinj f n h
        subst this
        simp
      · have hn' : n ∈ rest := by
          rcases List.mem_cons.1 hn with rfl | hmem
          · exact absurd rfl h
          · exact hmem
        rw [if_neg h]
        exact ih n hn'

/-- C9: for every working tree, `has_typical_files` and `has_typical_dirs`
return exactly one entry per catalog item — 27 file entries and 6 directory
entries with pairwise distinct keys — whose value is the 0/1 presence flag of
that file (resp. directory) at the tree root, regardless of what else the tree
contains. -/
theorem C9_presence_catalog (t : FsTree) :
    ((has_typical_files t).map Prod.fst).Nodup ∧
    (has_typical_files t).length = 27 ∧
    (∀ f ∈ typical_files,
      lookupKey ("file:" ++ f) (has_typical_files t) = some (if t.isFile f then 1 else 0)) ∧
    (∀ kv ∈ has_typical_files t, kv.2 = 0 ∨ kv.2 = 1) ∧
    ((has_typical_dirs t).map Prod.fst).Nodup ∧
    (has_typical_dirs t).length = 6 ∧
    (∀ d ∈ typical_dirs,
      lookupKey ("dir:" ++ d) (has_typical_dirs t) = some (if t.isDir d then 1 else 0)) ∧
    (∀ kv ∈ has_typical_dirs t, kv.2 = 0 ∨ kv.2 = 1) := by
  refine ⟨?_, ?_, ?_, ?_, ?_, ?_, ?_, ?_⟩
  · have he : (has_typical_files t).map Prod.fst = typical_files.map (fun f => "file:" ++ f) := by
      rw [has_typical_files, List.map_map]
      rfl
    rw [he]
    exact List.Nodup.map (fun a b => stringAppendLeftInj "file:" a b) (by decide)
  · simp [has_typical_files, typical_files]
  · exact fun f hf => lookupKey_map_keyed (fun f => "file:" ++ f) _
      (stringAppendLeftInj "file:") typical_files f hf
  · intro kv hkv
    simp only [has_typical_files, List.mem_map] at hkv
    obtain ⟨f, _, rfl⟩ := hkv
    by_cases h : t.isFile f <;> simp [h]
  · have he : (has_typical_dirs t).map Prod.fst = typical_dirs.map (fun d => "dir:" ++ d) := by
      rw [has_typical_dirs, List.map_map]
      rfl
    rw [he]
    exact List.Nodup.map (fun a b => stringAppendLeftInj "dir:" a b) (by decide)
  · simp [has_typical_dirs, typical_dirs]
  · exact fun d hd => lookupKey_map_keyed (fun d => "dir:" ++ d) _
      (stringAppendLeftInj "dir:") typical_dirs d hd
  · intro kv hkv
    simp only [has_typical_dirs, List.mem_map] at hkv
    obtain ⟨d, _, rfl⟩ := hkv
    by_cases h : t.isDir d <;> simp [h]

/-- Witness for C9 at a concrete tree containing only a README and a LICENSE. -/
theorem C9_presence_catalog_witness :
    lookupKey "file:LICENSE"
        (has_typical_files ⟨fun f => f = "README.md" ∨ f = "LICENSE", fun _ => false⟩) =
      some 1 := by
  have := (C9_presence_catalog
    ⟨fun f => f = "README.md" ∨ f = "LICENSE", fun _ => false⟩).2.2.1 "LICENSE" (by decide)
  simpa using this

/-! ## C5: license inference -/

theorem inferLicenseGo_eq (probe : String → LicenseProbe) :
    ∀ l : List String,
      inferLicenseGo probe l =
        [("license", (l.findSome? (fun f =>
          match probe f with
          | .identified name => some name
          | _ => none)).getD "")] := by
  intro l
  induction l with
  | nil => simp [inferLicenseGo, List.findSome?]
  | cons f rest ih =>
      cases hf : probe f <;> simp [inferLicenseGo, List.findSome?_cons, hf, ih]

/-- C5: `infer_license` probes exactly the four candidate filenames in the
documented order and returns the name from the first successfully identified
candidate; missing and undecodable candidates are skipped, an unidentified
candidate only logs a warning, and when no candidate is identified the result
is the empty value — the function always returns. -/
theorem C5_license_first_identified (probe : String → LicenseProbe) :
    infer_license probe = [("license", (firstIdentifiedLicense probe).getD "")] := by
  rw [infer_license, inferLicenseGo_eq]
  rfl

/-! ## C7: clone-or-update fallback -/

/-- C7: `git_clone_or_update` never raises; when a local copy exists and the
fast-forward pull fails it removes the copy and attempts a fresh clone; and
whenever the clone that was attempted fails, the partially-created directory
is removed so that no directory remains at the clone path. -/
theorem C7_clone_fallback (dirAtPath pullOk cloneOk : Bool) :
    (git_clone_or_update dirAtPath pullOk cloneOk).raised = false ∧
    (dirAtPath = true → pullOk = false →
      GitAction.rmtree ∈ (git_clone_or_update dirAtPath pullOk cloneOk).trace ∧
      GitAction.cloneCmd ∈ (git_clone_or_update dirAtPath pullOk cloneOk).trace) ∧
    (¬(dirAtPath = true ∧ pullOk = true) → cloneOk = false →
      (git_clone_or_update dirAtPath pullOk cloneOk).dirAfter = false) := by
  revert dirAtPath pullOk cloneOk
  decide

/-- Witness for C7: existing copy, failing pull, failing clone — the clone is
attempted after removal and no directory is left behind. -/
theorem C7_clone_fallback_witness :
    GitAction.cloneCmd ∈ (git_clone_or_update true false false).trace ∧
    (git_clone_or_update true false false).dirAfter = false :=
  ⟨((C7_clone_fallback true false false).2.1 rfl rfl).2,
   (C7_clone_fallback true false false).2.2 (by simp) rfl⟩

/-! ## C10: filtered runs do not create new records -/

/-- C10: when an extractor filter is given, the JSON-persisting `infer_style`
skips every project directory that has no existing `style.json`: after the
whole run the store still has no record for that project. -/
theorem C10_filtered_skip {V : Type}
    (styleOf : String × String → Option String → List (String × V))
    (only : Option String) (projects : List (String × String))
    (store : List ((String × String) × StoredJson V)) (k : String × String)
    (honly : only.isSome = true) (hk : lookupKey k store = none) :
    lookupKey k (infer_style styleOf only projects store) = none := by
  induction projects generalizing store with
  | nil => exact hk
  | cons p rest ih =>
      have hstep : lookupKey k (inferStyleStep styleOf only store p) = none := by
        unfold inferStyleStep
        by_cases hpk : p = k
        · subst hpk
          rw [hk]
          simp [honly, hk]
        · cases hstore : lookupKey p store with
          | none => simp [honly, hk]
          | some sj => cases sj <;> simp [lookupKey_setKey_ne _ _ hpk, hk]
      exact ih _ hstep

/-- Witness for C10: one project, a filter, an empty store — no record is
created. -/
theorem C10_filtered_skip_witness :
    lookupKey ("org", "proj")
        (infer_style (fun _ _ => [("file:README", (1 : ℤ))]) (some "has")
          [("org", "proj")] []) = none :=
  C10_filtered_skip (fun _ _ => [("file:README", (1 : ℤ))]) (some "has")
    [("org", "proj")] [] ("org", "proj") rfl rfl

/-! ## C4: extractor failure policy -/

theorem except_isOk_ok {ε α : Type} (a : α) : (Except.ok a : Except ε α).isOk = true := rfl

theorem except_isOk_error {ε α : Type} (e : ε) :
    (Except.error e : Except ε α).isOk = false := rfl

theorem except_toOption_ok {ε α : Type} (a : α) :
    (Except.ok a : Except ε α).toOption = some a := rfl

theorem inferStyleGo_spec {τ V : Type} (path : τ) (only : Option String) :
    ∀ (ms : List (String × (τ → Except Unit (List (String × V)))))
      (acc : List (String × V)),
      inferStyleGo path only ms acc =
        (((ms.filter (fun m => onlyAllows only m.1)).takeWhile
            (fun m => (m.2 path).isOk)).foldl
          (fun a m => dictUpdate a ((m.2 path).toOption.getD [])) acc,
         (ms.filter (fun m => onlyAllows only m.1)).any (fun m => !(m.2 path).isOk)) := by
  intro ms
  induction ms with
  | nil => intro acc; simp [inferStyleGo]
  | cons hd rest ih =>
      intro acc
      obtain ⟨nm, g⟩ := hd
      by_cases ha : onlyAllows only nm
      · cases he : g path with
        | ok kvs =>
            have h1 : inferStyleGo path only ((nm, g) :: rest) acc =
                inferStyleGo path only rest (dictUpdate acc kvs) := by
              simp [inferStyleGo, ha, he]
            rw [h1, ih, List.filter_cons]
            simp only [ha, if_true]
            rw [List.takeWhile_cons_of_pos (by simp [he, except_isOk_ok]),
              List.foldl_cons, List.any_cons]
            simp [he, except_isOk_ok, except_toOption_ok]
        | error e =>
            have h1 : inferStyleGo path only ((nm, g) :: rest) acc = (acc, true) := by
              simp [inferStyleGo, ha, he]
            rw [h1, List.filter_cons]
            simp only [ha, if_true]
            rw [List.takeWhile_cons_of_neg (by simp [he, except_isOk_error]),
              List.any_cons]
            simp [he, except_isOk_error]
      · have h1 : inferStyleGo path only ((nm, g) :: rest) acc =
            inferStyleGo path only rest acc := by
          simp [inferStyleGo, ha]
        rw [h1, ih, List.filter_cons]
        simp [ha]

/-- C4 counterexample: with a battery whose second extractor raises, the
per-repository result is the partially populated mapping accumulated before
the failure — the first extractor's key is present, the third extractor never
runs (its key is absent), and the record is not an absent/failed marker —
refuting the claim that the record is marked absent rather than returned
partially populated and that the remaining extractors still run. -/
theorem C4_counterexample :
    infer_style_of_repo
        [("has_file", fun _ => Except.ok [("file:README", (1 : ℤ))]),
         ("license", fun _ => Except.error ()),
         ("shebang", fun _ => Except.ok [("shebangs_pct", 0)])]
        () none = ([("file:README", 1)], true) ∧
    (infer_style_of_repo
        [("has_file", fun _ => Except.ok [("file:README", (1 : ℤ))]),
         ("license", fun _ => Except.error ()),
         ("shebang", fun _ => Except.ok [("shebangs_pct", 0)])]
        () none).1 ≠ [] ∧
    lookupKey "shebangs_pct"
      (infer_style_of_repo
        [("has_file", fun _ => Except.ok [("file:README", (1 : ℤ))]),
         ("license", fun _ => Except.error ()),
         ("shebang", fun _ => Except.ok [("shebangs_pct", 0)])]
        () none).1 = none := by
  refine ⟨rfl, by decide, rfl⟩

/-- C4 (amended): an uncaught extractor exception is caught at the
per-repository boundary and logged (the returned flag), and the analysis of
every repository in the batch is independent of the others; however the
extractors after the failing one are skipped for that repository, and the
value returned is the mapping accumulated from the extractors that succeeded
before the failure — a partial mapping, not an absent/failed record. -/
theorem C4_extractor_failure (τ V : Type)
    (methods : List (String × (τ → Except Unit (List (String × V)))))
    (only : Option String) (path : τ) :
    infer_style_of_repo methods path only =
      (((methods.filter (fun m => onlyAllows only m.1)).takeWhile
          (fun m => (m.2 path).isOk)).foldl
        (fun a m => dictUpdate a ((m.2 path).toOption.getD [])) [],
       (methods.filter (fun m => onlyAllows only m.1)).any (fun m => !(m.2 path).isOk)) ∧
    (∀ (paths : List τ) (i : ℕ),
      (inferStyleBatch methods only paths)[i]? =
        (paths[i]?).map (fun p => infer_style_of_repo methods p only)) := by
  constructor
  · exact inferStyleGo_spec path only methods []
  · intro paths i
    simp [inferStyleBatch]

/-! ## C3: shebang percentage -/

theorem rat_floor_eq_intFloor (q : ℚ) : q.floor = ⌊q⌋ := by
  rw [Rat.floor_def', Rat.floor_def]

theorem countShebangsGo_counts :
    ∀ (files : List (Option String)) (counter : List (String × ℤ)) (qty n : ℕ),
      (countShebangsGo files counter qty n).2.1 = qty + shebangCountOf files ∧
      (countShebangsGo files counter qty n).2.2 = n + files.length := by
  intro files
  induction files with
  | nil => intro counter qty n; simp [countShebangsGo, shebangCountOf]
  | cons f rest ih =>
      intro counter qty n
      cases f with
      | none =>
          have h1 : countShebangsGo (none :: rest) counter qty n =
              countShebangsGo rest counter qty (n + 1) := by
            simp [countShebangsGo]
          rw [h1]
          refine ⟨?_, ?_⟩
          · rw [(ih counter qty (n + 1)).1]
            simp only [shebangCountOf, List.countP_cons]
            simp
          · rw [(ih counter qty (n + 1)).2]
            simp only [List.length_cons]
            omega
      | some line =>
          by_cases hs : startsShebang line
          · cases hv : searchPython line.data with
            | some m =>
                have h1 : countShebangsGo (some line :: rest) counter qty n =
                    countShebangsGo rest (counterInc counter ("shebang:" ++ String.mk m))
                      (qty + 1) (n + 1) := by
                  simp [countShebangsGo, hs, hv]
                rw [h1]
                refine ⟨?_, ?_⟩
                · rw [(ih _ (qty + 1) (n + 1)).1]
                  simp only [shebangCountOf, List.countP_cons, hs]
                  simp
                  omega
                · rw [(ih _ (qty + 1) (n + 1)).2]
                  simp only [List.length_cons]
                  omega
            | none =>
                have h1 : countShebangsGo (some line :: rest) counter qty n =
                    countShebangsGo rest counter (qty + 1) (n + 1) := by
                  simp [countShebangsGo, hs, hv]
                rw [h1]
                refine ⟨?_, ?_⟩
                · rw [(ih counter (qty + 1) (n + 1)).1]
                  simp only [shebangCountOf, List.countP_cons, hs]
                  simp
                  omega
                · rw [(ih counter (qty + 1) (n + 1)).2]
                  simp only [List.length_cons]
                  omega
          · have h1 : countShebangsGo (some line :: rest) counter qty n =
                countShebangsGo rest counter qty (n + 1) := by
              simp [countShebangsGo, hs]
            rw [h1]
            refine ⟨?_, ?_⟩
            · rw [(ih counter qty (n + 1)).1]
              simp only [shebangCountOf, List.countP_cons, hs]
              simp [hs]
            · rw [(ih counter qty (n + 1)).2]
              simp only [List.length_cons]
              omega

/-- C3 counterexample: trees refuting the claimed `round` formula.  With
three `.py` files of which two start with a shebang, the code reports
`shebangs_pct = 66` (the binary64 evaluation of `int(100 * (2/3))`) while the
claim's `round(100 * 2 / 3)` gives `67`; with 29 shebangs in 100 files the
code reports `28` (the double nearest `29/100` is slightly below it, exactly
as CPython computes) while the claim's formula gives `29`. -/
theorem C3_counterexample :
    lookupKey "shebangs_pct"
        (count_shebangs [some "#!/usr/bin/env python3", some "#!/usr/bin/env python3",
          some "import os"]) = some 66 ∧
    pyRound ((100 * 2 : ℚ) / 3) = 67 ∧
    lookupKey "shebangs_pct"
        (count_shebangs (List.replicate 29 (some "#!") ++ List.replicate 71 (some "x"))) =
      some 28 ∧
    pyRound ((100 * 29 : ℚ) / 100) = 29 := by
  refine ⟨by decide, ?_, by decide, ?_⟩
  · unfold pyRound
    rw [show (100 * 2 : ℚ) / 3 = (200 : ℚ) / 3 by norm_num]
    have hfl : ((200 : ℚ) / 3).floor = 66 := by
      rw [rat_floor_eq_intFloor]
      rw [show (200 : ℚ) / 3 = ((200 : ℤ) : ℚ) / ((3 : ℕ) : ℚ) by norm_num]
      rw [Rat.floor_intCast_div_natCast]
      rfl
    rw [hfl]
    norm_num
  · unfold pyRound
    rw [show (100 * 29 : ℚ) / 100 = ((29 : ℤ) : ℚ) by norm_num]
    rw [rat_floor_eq_intFloor, Int.floor_intCast]
    norm_num

/-- C3 (amended): for every working tree, `count_shebangs` reports
`shebangs_pct` equal to the Python `int()` truncation of
`100 * shebang_count / total_py_files` evaluated in binary64 floating-point
arithmetic — not the nearest-integer rounding, and occasionally one below the
exact floor (e.g. 29 of 100 reports 28) — where `total_py_files` counts every
enumerated `.py` entry (unreadable ones included) and `shebang_count` those
whose first line starts with `#!`; with zero `.py` files the reported value is
`0` and no error occurs. -/
theorem C3_shebang_pct (files : List (Option String)) :
    lookupKey "shebangs_pct" (count_shebangs files) =
      some (shebangsPctVal (shebangCountOf files) files.length) ∧
    (files.length = 0 → lookupKey "shebangs_pct" (count_shebangs files) = some 0) := by
  have h1 : lookupKey "shebangs_pct" (count_shebangs files) =
      some (shebangsPctVal (shebangCountOf files) files.length) := by
    unfold count_shebangs
    rw [lookupKey_setKey_self]
    have hc := countShebangsGo_counts files [] 0 0
    rw [hc.1, hc.2, Nat.zero_add, Nat.zero_add]
  refine ⟨h1, fun hlen => ?_⟩
  rw [h1, hlen]
  rfl

/-- Witness for C3 (amended) at the empty tree: zero `.py` files report a
percentage of `0`. -/
theorem C3_shebang_pct_witness :
    lookupKey "shebangs_pct" (count_shebangs ([] : List (Option String))) = some 0 :=
  (C3_shebang_pct []).2 rfl

/-! ## C1: commit-scoping constructs -/

/-- C1: evaluating the commit-scoping constructs of update.py on a concrete
two-commit clone.  `random_commit` raises `TypeError` from `fix_checkout`
(the membership test `b"detached at" not in status` applies a bytes needle to
a `str`) before recording `HEAD` or entering the body: the body never runs and
its result is replaced by the propagated `TypeError`.  The fixed-commit
variant `commit` behaves as specified: even around a body that raises, the
working tree is checked back out to the recorded entry commit. -/
theorem C1_random_commit_typeerror :
    withRandomCommit ⟨"c2", ["c2", "c1"], false⟩ 0
        (fun r _ => (r, Except.ok (0 : ℕ))) =
      (⟨"c2", ["c2", "c1"], false⟩, .error .typeError) ∧
    (withCommitScope ⟨"c2", ["c2", "c1"], false⟩ "c1"
        (fun r => (r, (Except.error .otherError : Except PyErr ℕ)))).1.head = "c2" :=
  ⟨rfl, rfl⟩

/-! ## C2: GitHub project URL validation

Inversion and construction lemmas for the backtracking matcher, leading to an
exact characterisation of which URLs `is_github_project_url` accepts. -/

theorem optionMapIsSome {α β : Type} (f : α → β) (o : Option α) :
    (Option.map f o).isSome = o.isSome := by
  cases o <;> rfl

theorem rmatch_lit_isSome_inv {c : Char} {K : List RAtom} {s : List Char}
    (h : (rmatch (RAtom.lit c :: K) s).isSome = true) :
    ∃ s', s = c :: s' ∧ (rmatch K s').isSome = true := by
  cases s with
  | nil => simp [rmatch] at h
  | cons d s' =>
      simp only [rmatch] at h
      by_cases hc : c = d
      · subst hc
        rw [if_pos rfl, optionMapIsSome] at h
        exact ⟨s', rfl, h⟩
      · rw [if_neg hc] at h
        simp at h

theorem rmatch_lit_isSome_mk {c : Char} {K : List RAtom} {s' : List Char}
    (h : (rmatch K s').isSome = true) :
    (rmatch (RAtom.lit c :: K) (c :: s')).isSome = true := by
  simp [rmatch, Option.isSome_map, h]

theorem rmatch_dot_isSome_inv {K : List RAtom} {s : List Char}
    (h : (rmatch (RAtom.dot :: K) s).isSome = true) :
    ∃ d s', s = d :: s' ∧ d ≠ '\n' ∧ (rmatch K s').isSome = true := by
  cases s with
  | nil => simp [rmatch] at h
  | cons d s' =>
      simp only [rmatch] at h
      by_cases hd : d = '\n'
      · rw [if_pos hd] at h
        simp at h
      · rw [if_neg hd, optionMapIsSome] at h
        exact ⟨d, s', rfl, hd, h⟩

theorem rmatch_dot_isSome_mk {K : List RAtom} {d : Char} {s' : List Char}
    (hd : d ≠ '\n') (h : (rmatch K s').isSome = true) :
    (rmatch (RAtom.dot :: K) (d :: s')).isSome = true := by
  simp [rmatch, hd, optionMapIsSome, h]

theorem rmatch_lits_isSome_inv :
    ∀ (w : List Char) {K : List RAtom} {s : List Char},
      (rmatch (litsOf w ++ K) s).isSome = true →
      ∃ s', s = w ++ s' ∧ (rmatch K s').isSome = true := by
  intro w
  induction w with
  | nil => intro K s h; exact ⟨s, rfl, h⟩
  | cons c w' ih =>
      intro K s h
      obtain ⟨s1, rfl, h1⟩ := rmatch_lit_isSome_inv h
      obtain ⟨s2, rfl, h2⟩ := ih h1
      exact ⟨s2, rfl, h2⟩

theorem rmatch_lits_isSome_mk :
    ∀ (w : List Char) {K : List RAtom} {s' : List Char},
      (rmatch K s').isSome = true →
      (rmatch (litsOf w ++ K) (w ++ s')).isSome = true := by
  intro w
  induction w with
  | nil => intro K s' h; exact h
  | cons c w' ih =>
      intro K s' h
      exact rmatch_lit_isSome_mk (ih h)

theorem starLoop_isSome_inv {p : Char → Bool} {k : List Char → Option Nat} :
    ∀ (s : List Char), (starLoop p k s).isSome = true →
      ∃ w s', s = w ++ s' ∧ (∀ c ∈ w, p c = true) ∧ (k s').isSome = true := by
  intro s
  induction s with
  | nil => intro h; exact ⟨[], [], rfl, by simp, h⟩
  | cons d s' ih =>
      intro h
      simp only [starLoop] at h
      by_cases hp : p d
      · rw [if_pos hp] at h
        cases hin : starLoop p k s' with
        | some n =>
            obtain ⟨w, s'', rfl, hall, hk⟩ := ih (by rw [hin]; rfl)
            refine ⟨d :: w, s'', rfl, ?_, hk⟩
            intro c hc
            rcases List.mem_cons.1 hc with rfl | hmem
            · exact hp
            · exact hall c hmem
        | none =>
            rw [hin] at h
            exact ⟨[], d :: s', rfl, by simp, h⟩
      · rw [if_neg hp] at h
        exact ⟨[], d :: s', rfl, by simp, h⟩

theorem starLoop_isSome_exit {p : Char → Bool} {k : List Char → Option Nat} {s : List Char}
    (h : (k s).isSome = true) : (starLoop p k s).isSome = true := by
  cases s with
  | nil => exact h
  | cons d s' =>
      simp only [starLoop]
      by_cases hp : p d
      · rw [if_pos hp]
        cases hin : starLoop p k s' with
        | some n => rfl
        | none => exact h
      · rw [if_neg hp]
        exact h

theorem starLoop_isSome_cons {p : Char → Bool} {k : List Char → Option Nat} {d : Char}
    {s : List Char} (hp : p d = true) (h : (starLoop p k s).isSome = true) :
    (starLoop p k (d :: s)).isSome = true := by
  simp only [starLoop, if_pos hp]
  cases hin : starLoop p k s with
  | some n => rfl
  | none => rw [hin] at h; simp at h

theorem starLoop_isSome_append {p : Char → Bool} {k : List Char → Option Nat} :
    ∀ (w : List Char) (s : List Char), (∀ c ∈ w, p c = true) →
      (starLoop p k s).isSome = true → (starLoop p k (w ++ s)).isSome = true := by
  intro w
  induction w with
  | nil => intro s _ h; exact h
  | cons c w' ih =>
      intro s hall h
      exact starLoop_isSome_cons (hall c (List.mem_cons_self c w'))
        (ih s (fun x hx => hall x (List.mem_cons_of_mem _ hx)) h)

theorem rmatch_opt_isSome (c : Char) (s : List Char) :
    (rmatch [RAtom.opt c] s).isSome = true := by
  cases s with
  | nil => rfl
  | cons d s' =>
      simp only [rmatch]
      by_cases hc : c = d
      · rw [if_pos hc]
        rfl
      · rw [if_neg hc]
        rfl

theorem rmatch_star_opt_isSome (p : Char → Bool) (c : Char) (s : List Char) :
    (rmatch [RAtom.star p, RAtom.opt c] s).isSome = true :=
  starLoop_isSome_exit (rmatch_opt_isSome c s)

/-- C2 counterexample: a URL carrying extra path segments after the project
name is accepted by both variants of `is_github_project_url`, refuting the
claim that such URLs are rejected (the regex is only anchored at the start). -/
theorem C2_counterexample :
    is_github_project_url "https://github.com/JulienPalard/pystyle/issues/42" = true ∧
    is_github_project_url_plus "https://github.com/JulienPalard/pystyle/issues/42" = true :=
  ⟨by decide, by decide⟩

/-- C2 (amended): `is_github_project_url` is a prefix match, not an exact
match — it accepts a URL exactly when the URL starts with
`https://github.com/` (any character other than a newline in place of the
unescaped dot, which does not match newline without `re.DOTALL`), then a
possibly empty slash-free owner segment, then `/`; everything after that
second slash, including further path segments, is ignored, so every URL with
extra path segments after the project name is accepted as well. -/
theorem C2_github_url_prefix_match (url : String) :
    is_github_project_url url = true ↔
      ∃ (c : Char) (a b : List Char),
        url.data = "https://github".data ++ c :: ("com/".data ++ (a ++ '/' :: b)) ∧
        c ≠ '\n' ∧
        ∀ x ∈ a, x ≠ '/' := by
  have hP : githubProjectPat =
      litsOf "https://github".data ++ (RAtom.dot :: (litsOf "com/".data ++
        [RAtom.star nonSlash, RAtom.lit '/', RAtom.star nonSlash, RAtom.opt '/'])) := by
    simp [githubProjectPat, List.append_assoc]
  constructor
  · intro h
    rw [is_github_project_url, hP] at h
    obtain ⟨s1, he1, h⟩ := rmatch_lits_isSome_inv _ h
    obtain ⟨ch, s2, he2, hch, h⟩ := rmatch_dot_isSome_inv h
    obtain ⟨s3, he3, h⟩ := rmatch_lits_isSome_inv _ h
    have h' : (starLoop nonSlash
        (rmatch [RAtom.lit '/', RAtom.star nonSlash, RAtom.opt '/']) s3).isSome = true := h
    obtain ⟨a, s4, he4, hall, h2⟩ := starLoop_isSome_inv s3 h'
    obtain ⟨s5, he5, _⟩ := rmatch_lit_isSome_inv h2
    refine ⟨ch, a, s5, ?_, hch, ?_⟩
    · rw [he1, he2, he3, he4, he5]
    · intro x hx
      have := hall x hx
      simpa [nonSlash] using this
  · rintro ⟨c, a, b, hurl, hc, hall⟩
    rw [is_github_project_url, hurl, hP]
    apply rmatch_lits_isSome_mk
    apply rmatch_dot_isSome_mk hc
    apply rmatch_lits_isSome_mk
    show (starLoop nonSlash
      (rmatch [RAtom.lit '/', RAtom.star nonSlash, RAtom.opt '/']) (a ++ '/' :: b)).isSome = true
    apply starLoop_isSome_append a ('/' :: b)
      (fun x hx => by simpa [nonSlash] using hall x hx)
    apply starLoop_isSome_exit
    apply rmatch_lit_isSome_mk
    exact rmatch_star_opt_isSome nonSlash '/' b

/-- Witness for C2 (amended): the canonical two-segment URL is accepted, built
through the characterisation. -/
theorem C2_github_url_prefix_match_witness :
    is_github_project_url "https://github.com/a/b" = true :=
  (C2_github_url_prefix_match "https://github.com/a/b").mpr
    ⟨'.', ['a'], ['b'], by decide, by decide, by decide⟩

/-! ## C8: PyPI page resolution -/

theorem insertByLen_ne_nil (x : List Char) (l : List (List Char)) : insertByLen x l ≠ [] := by
  cases l with
  | nil => simp [insertByLen]
  | cons y ys =>
      simp only [insertByLen]
      split <;> simp

theorem mem_insertByLen {x y : List Char} :
    ∀ {l : List (List Char)}, x ∈ insertByLen y l ↔ x = y ∨ x ∈ l := by
  intro l
  induction l with
  | nil => simp [insertByLen]
  | cons z zs ih =>
      simp only [insertByLen]
      split
      · simp
      · simp only [List.mem_cons, ih]
        tauto

theorem mem_sortByLen {x : List Char} : ∀ {l : List (List Char)}, x ∈ sortByLen l ↔ x ∈ l := by
  intro l
  induction l with
  | nil => simp [sortByLen]
  | cons a rest ih =>
      show x ∈ insertByLen a (sortByLen rest) ↔ _
      rw [mem_insertByLen]
      simp [ih]

theorem sortByLen_ne_nil {l : List (List Char)} (h : l ≠ []) : sortByLen l ≠ [] := by
  cases l with
  | nil => exact absurd rfl h
  | cons a rest => exact insertByLen_ne_nil a (sortByLen rest)

theorem sortByLen_head_mem {l : List (List Char)} (h : l ≠ []) :
    (sortByLen l).headD [] ∈ l := by
  cases hs : sortByLen l with
  | nil => exact absurd hs (sortByLen_ne_nil h)
  | cons b bs =>
      have hb : b ∈ sortByLen l := by rw [hs]; exact List.mem_cons_self b bs
      simpa using mem_sortByLen.mp hb

theorem sortByLen_head_min :
    ∀ (l : List (List Char)) (y : List Char), y ∈ l →
      ((sortByLen l).headD []).length ≤ y.length := by
  intro l
  induction l with
  | nil => simp
  | cons a rest ih =>
      intro y hy
      show ((insertByLen a (sortByLen rest)).headD []).length ≤ y.length
      cases hs : sortByLen rest with
      | nil =>
          have hrest : rest = [] := by
            cases rest with
            | nil => rfl
            | cons b bs =>
                have : b ∈ sortByLen (b :: bs) := mem_sortByLen.mpr (List.mem_cons_self b bs)
                rw [hs] at this
                simp at this
          rcases List.mem_cons.1 hy with rfl | hmem
          · simp [insertByLen]
          · rw [hrest] at hmem
            simp at hmem
      | cons b bs =>
          have hb : ((sortByLen rest).headD []) = b := by rw [hs]; rfl
          by_cases hab : a.length ≤ b.length
          · simp only [insertByLen, if_pos hab, List.headD_cons]
            rcases List.mem_cons.1 hy with rfl | hmem
            · exact le_rfl
            · exact le_trans hab (hb ▸ ih y hmem)
          · simp only [insertByLen, if_neg hab, List.headD_cons]
            rcases List.mem_cons.1 hy with rfl | hmem
            · exact le_of_not_le hab
            · exact hb ▸ ih y hmem

/-- C8 counterexample: a response whose JSON `home_page` field exists but is
not GitHub-shaped, while the raw page text does contain a GitHub project URL.
The structured lookup finds no GitHub link, yet no fallback scan happens and
the function returns no URL — refuting the claim that the raw-text scan runs
whenever the structured lookup fails (it only runs on `KeyError`, i.e. when
the field is absent). -/
theorem C8_counterexample :
    pypi_url_to_github_url
        ⟨some "https://pypi.org/project/demo", "see https://github.com/a/b now"⟩ = none ∧
    refindallGithub "see https://github.com/a/b now".data = ["https://github.com/a/b".data] ∧
    pypi_url_to_github_url ⟨none, "see https://github.com/a/b now"⟩ =
      some "https://github.com/a/b" :=
  ⟨by decide, by decide, by decide⟩

/-- C8 (amended): when the JSON body has a `home_page` field, the function
returns it exactly when it is GitHub-shaped and otherwise returns no URL
without scanning the page text; only when the field is absent (`KeyError`)
does it scan the raw text, returning absence when nothing matches and
otherwise a shortest GitHub-shaped match.  In all cases the function returns
rather than raising. -/
theorem C8_github_resolution (resp : PyPIResponse) :
    (∀ hp, resp.home_page = some hp →
      pypi_url_to_github_url resp = (if is_github_project_url hp then some hp else none)) ∧
    (resp.home_page = none → refindallGithub resp.text.data = [] →
      pypi_url_to_github_url resp = none) ∧
    (resp.home_page = none → refindallGithub resp.text.data ≠ [] →
      ∃ r, pypi_url_to_github_url resp = some r ∧
        r.data ∈ refindallGithub resp.text.data ∧
        ∀ m ∈ refindallGithub resp.text.data, r.data.length ≤ m.length) := by
  refine ⟨?_, ?_, ?_⟩
  · intro hp hhp
    simp [pypi_url_to_github_url, hhp]
  · intro hnone hempty
    simp [pypi_url_to_github_url, hnone, hempty]
  · intro hnone hne
    have hEmpty : (refindallGithub resp.text.data).isEmpty = false := by
      cases hl : refindallGithub resp.text.data with
      | nil => exact absurd hl hne
      | cons x xs => rfl
    refine ⟨String.mk ((sortByLen (refindallGithub resp.text.data)).headD []), ?_, ?_, ?_⟩
    · simp [pypi_url_to_github_url, hnone, hEmpty]
    · exact sortByLen_head_mem hne
    · exact fun m hm => sortByLen_head_min _ m hm

/-- Witness for C8 (amended) on a concrete response with no `home_page`
field. -/
theorem C8_github_resolution_witness :
    ∃ r, pypi_url_to_github_url ⟨none, "see https://github.com/a/b now"⟩ = some r ∧
      r.data ∈ refindallGithub "see https://github.com/a/b now".data ∧
      ∀ m ∈ refindallGithub "see https://github.com/a/b now".data,
        r.data.length ≤ m.length :=
  (C8_github_resolution ⟨none, "see https://github.com/a/b now"⟩).2.2 rfl (by decide)

end Pystyle
